import Mathlib

/-!
Verification of the two numerical routines in
src/eolis_svalbard_timeseries.ipynb of earthwave/specklia_demo_notebooks:
the weighted elevation-difference time series (calculate_time_series) and
the per-pixel least-squares rate-of-change map (calculate_rate_of_change_map).

Numeric model.  The notebook computes with IEEE-754 doubles.  We embed the
arithmetic over the rationals extended with the IEEE special values
(+infinity, -infinity, NaN), applying the IEEE special-value rules for
exactly the operations the code performs.  All zeros reachable as divisors
in this code's dataflow are the positive zero, so a single zero suffices.
Rounding is not modelled: on finite values every operation the two routines
perform is exact rational arithmetic.

The code computes the combined uncertainty as
sqrt(uncertainty_right^2 + uncertainty_left^2) and then only ever uses its
square in the weighted sums; symbolically the square of that square root is
uncertainty_right^2 + uncertainty_left^2 again (it is nonnegative or NaN),
so we carry the square directly (sigmaSqOf).  Likewise the final
np.sqrt(1 / sum(1/sigma^2)) is represented by its radicand (field
error_sq): real square root is injective on the nonnegative reals and maps
+infinity to +infinity and NaN to NaN, so every statement about the
propagated uncertainty is made on its square.
-/

/-- Rational numbers extended with the three IEEE-754 special values.
NaN also models a missing (NaN) value in a dataframe column. -/
inductive RVal where
  | finite : ℚ → RVal
  | inf : RVal
  | neginf : RVal
  | nan : RVal
deriving DecidableEq, Repr

/-- True exactly on the NaN value. -/
def RVal.isNan : RVal → Bool
  | RVal.nan => true
  | _ => false

/-- True exactly on finite values. -/
def RVal.isFinite : RVal → Bool
  | RVal.finite _ => true
  | _ => false

/-- The rational carried by a finite value (junk 0 otherwise). -/
def RVal.toQ : RVal → ℚ
  | RVal.finite q => q
  | _ => 0

/-- IEEE addition on extended rationals: NaN propagates and the two
infinities of opposite sign add to NaN. -/
def RVal.add : RVal → RVal → RVal
  | RVal.finite a, RVal.finite b => RVal.finite (a + b)
  | RVal.finite _, RVal.inf => RVal.inf
  | RVal.finite _, RVal.neginf => RVal.neginf
  | RVal.inf, RVal.finite _ => RVal.inf
  | RVal.inf, RVal.inf => RVal.inf
  | RVal.inf, RVal.neginf => RVal.nan
  | RVal.neginf, RVal.finite _ => RVal.neginf
  | RVal.neginf, RVal.inf => RVal.nan
  | RVal.neginf, RVal.neginf => RVal.neginf
  | RVal.nan, _ => RVal.nan
  | _, RVal.nan => RVal.nan

/-- IEEE squaring on extended rationals. -/
def RVal.sq : RVal → RVal
  | RVal.finite q => RVal.finite (q ^ 2)
  | RVal.inf => RVal.inf
  | RVal.neginf => RVal.inf
  | RVal.nan => RVal.nan

/-- IEEE division on extended rationals (divisor zero is the positive
zero, the only zero divisor this code's dataflow can produce): x/0 is
signed infinity for x nonzero and NaN for x zero, finite/infinite is 0,
infinite/finite keeps or flips the sign, infinite/infinite is NaN. -/
def RVal.div : RVal → RVal → RVal
  | RVal.finite a, RVal.finite b =>
      if b = 0 then
        if 0 < a then RVal.inf else if a < 0 then RVal.neginf else RVal.nan
      else RVal.finite (a / b)
  | RVal.finite _, RVal.inf => RVal.finite 0
  | RVal.finite _, RVal.neginf => RVal.finite 0
  | RVal.inf, RVal.finite b => if b < 0 then RVal.neginf else RVal.inf
  | RVal.inf, RVal.inf => RVal.nan
  | RVal.inf, RVal.neginf => RVal.nan
  | RVal.neginf, RVal.finite b => if b < 0 then RVal.inf else RVal.neginf
  | RVal.neginf, RVal.inf => RVal.nan
  | RVal.neginf, RVal.neginf => RVal.nan
  | RVal.nan, _ => RVal.nan
  | _, RVal.nan => RVal.nan

/-- The NaN-skipping sum of pandas (np.sum on a Series dispatches to
Series.sum, whose default is skipna=True): NaN terms are masked out and the
remaining values are reduced with IEEE addition from 0.  The empty sum is
0; opposite infinities among the kept terms still reduce to NaN. -/
def nansum (l : List RVal) : RVal :=
  (l.filter fun x => ! x.isNan).foldl RVal.add (RVal.finite 0)

/-- One elevation observation of the gridded product: a point geometry
(exact coordinates), an acquisition timestamp in epoch seconds, an
elevation in meters and an uncertainty in meters (NaN models a missing
value). -/
structure Sample where
  loc : ℚ × ℚ
  timestamp : ℤ
  elevation : ℚ
  uncertainty : RVal
deriving DecidableEq, Repr

/-- One output row of calculate_time_series: the timestamp (the code
renders it through datetime.fromtimestamp, a strictly monotone injection,
which we keep as the raw timestamp), the weighted mean elevation
difference, and the square of the propagated uncertainty. -/
structure TimeSeriesPoint where
  timestamp : ℤ
  weighted_mean : RVal
  error_sq : RVal
deriving DecidableEq, Repr

/-- One output row of calculate_rate_of_change_map. -/
structure PixelTrend where
  loc : ℚ × ℚ
  rate_of_surface_elevation_change_years : ℚ
deriving DecidableEq, Repr

/-- The samples of the table carrying a given timestamp
(gridded_product_data[gridded_product_data.timestamp == t]). -/
def samplesAt (samples : List Sample) (t : ℤ) : List Sample :=
  samples.filter fun s => decide (s.timestamp = t)

/-- The inner spatial join reference_dem.sjoin(df=current, how='inner'):
every reference row (left) paired with every current-timestamp row (right)
whose point geometry intersects it; for point geometries intersection is
exact coordinate equality.  Rows whose location appears in only one of the
two tables produce no pair. -/
def sjoinPairs (ref cur : List Sample) : List (Sample × Sample) :=
  ref.flatMap fun r => (cur.filter fun s => decide (s.loc = r.loc)).map fun s => (r, s)

/-- Column elevation_difference = elevation_right - elevation_left of the
joined table (left is the reference epoch, right the current timestamp). -/
def diffOf (p : Sample × Sample) : ℚ :=
  p.2.elevation - p.1.elevation

/-- The square of column elevation_difference_unc =
sqrt(uncertainty_right^2 + uncertainty_left^2); the code only ever uses
this square in the sums. -/
def sigmaSqOf (p : Sample × Sample) : RVal :=
  RVal.add (RVal.sq p.2.uncertainty) (RVal.sq p.1.uncertainty)

/-- weighted_mean = np.sum(elevation_difference / elevation_difference_unc**2)
/ np.sum(1 / elevation_difference_unc**2) over the joined rows. -/
def weightedMeanOf (pairs : List (Sample × Sample)) : RVal :=
  RVal.div
    (nansum (pairs.map fun p => RVal.div (RVal.finite (diffOf p)) (sigmaSqOf p)))
    (nansum (pairs.map fun p => RVal.div (RVal.finite 1) (sigmaSqOf p)))

/-- The square of error = np.sqrt(1 / np.sum(1 / elevation_difference_unc**2)). -/
def errorSqOf (pairs : List (Sample × Sample)) : RVal :=
  RVal.div (RVal.finite 1)
    (nansum (pairs.map fun p => RVal.div (RVal.finite 1) (sigmaSqOf p)))

/-- unique_timestamps = sorted(gridded_product_data.timestamp.unique()):
first occurrences kept, then sorted ascending. -/
def uniqueTimestamps (samples : List Sample) : List ℤ :=
  List.insertionSort (fun a b => a ≤ b) (samples.map Sample.timestamp).dedup

/-- The output row appended for one timestamp of the loop body of
calculate_time_series. -/
def timeSeriesEntry (ref cur : List Sample) (t : ℤ) : TimeSeriesPoint :=
  { timestamp := t
    weighted_mean := weightedMeanOf (sjoinPairs ref cur)
    error_sq := errorSqOf (sjoinPairs ref cur) }

/-- The joined pair list that the loop body builds for timestamp t, with
reference epoch t0. -/
def pairsAt (samples : List Sample) (t0 t : ℤ) : List (Sample × Sample) :=
  sjoinPairs (samplesAt samples t0) (samplesAt samples t)

/-- calculate_time_series of the notebook.  On an empty table
unique_timestamps[0] raises (IndexError), modelled as none.  Otherwise the
reference DEM is the set of samples at the minimum timestamp and the loop
emits one row per distinct timestamp in ascending order. -/
def calculate_time_series (samples : List Sample) : Option (List TimeSeriesPoint) :=
  match uniqueTimestamps samples with
  | [] => none
  | t0 :: rest =>
      some ((t0 :: rest).map fun t =>
        timeSeriesEntry (samplesAt samples t0) (samplesAt samples t) t)

instance : DecidableRel (fun a b : Sample => a.timestamp ≤ b.timestamp) :=
  fun a b => Int.decLe a.timestamp b.timestamp

/-- One pixel group of gridded_product_data.groupby(by='geometry'), sorted
by timestamp as pixel_group.sort_values(by='timestamp') does (a stable
sort; the regression result does not depend on row order). -/
def pixelGroup (samples : List Sample) (l : ℚ × ℚ) : List Sample :=
  List.insertionSort (fun a b => a.timestamp ≤ b.timestamp)
    (samples.filter fun s => decide (s.loc = l))

/-- The (timestamp, elevation) rows fed to np.linalg.lstsq for one pixel
group, timestamps cast to rationals. -/
def groupPoints (samples : List Sample) (l : ℚ × ℚ) : List (ℚ × ℚ) :=
  (pixelGroup samples l).map fun s => ((s.timestamp : ℚ), s.elevation)

/-- The slope component of np.linalg.lstsq(vstack([t, ones]).T, e)[0].
When the design matrix has full rank (at least two distinct timestamps)
this is the unique ordinary-least-squares slope in closed form.  When all
timestamps coincide the matrix is rank-deficient and lstsq returns the
minimum-norm least-squares solution, whose slope is
(mean elevation) * t / (t^2 + 1) for the common timestamp t. -/
def lstsqSlope (pts : List (ℚ × ℚ)) : ℚ :=
  if (pts.map Prod.fst).dedup.length ≤ 1 then
    match pts with
    | [] => 0
    | p :: _ =>
        (((pts.map Prod.snd).sum / (pts.length : ℚ)) * p.1) / (p.1 ^ 2 + 1)
  else
    ((pts.length : ℚ) * (pts.map fun p => p.1 * p.2).sum
        - (pts.map Prod.fst).sum * (pts.map Prod.snd).sum)
      / ((pts.length : ℚ) * (pts.map fun p => p.1 ^ 2).sum
        - (pts.map Prod.fst).sum ^ 2)

/-- The intercept component of the full-rank least-squares solution. -/
def lstsqIntercept (pts : List (ℚ × ℚ)) : ℚ :=
  ((pts.map Prod.snd).sum - lstsqSlope pts * (pts.map Prod.fst).sum)
    / (pts.length : ℚ)

/-- Sum of squared residuals of the line with slope m and intercept c. -/
def ssr (pts : List (ℚ × ℚ)) (m c : ℚ) : ℚ :=
  (pts.map fun p => (p.2 - (m * p.1 + c)) ^ 2).sum

/-- calculate_rate_of_change_map of the notebook: group by exact geometry,
regress elevation on timestamp within each group, and rescale the slope
from meters/second to meters/year by 60 * 60 * 24 * 365.  Every group
(every distinct location) produces exactly one output row. -/
def calculate_rate_of_change_map (samples : List Sample) : List PixelTrend :=
  ((samples.map Sample.loc).dedup).map fun l =>
    { loc := l
      rate_of_surface_elevation_change_years :=
        lstsqSlope (groupPoints samples l) * (60 * 60 * 24 * 365) }

/-! ## Helper lemmas -/

lemma RVal.div_finite_of_ne (a b : ℚ) (hb : b ≠ 0) :
    RVal.div (RVal.finite a) (RVal.finite b) = RVal.finite (a / b) := by
  simp [RVal.div, hb]

lemma foldl_add_finite (qs : List ℚ) (q0 : ℚ) :
    (qs.map RVal.finite).foldl RVal.add (RVal.finite q0) = RVal.finite (q0 + qs.sum) := by
  induction qs generalizing q0 with
  | nil => simp
  | cons q tl ih =>
      simp only [List.map_cons, List.foldl_cons, RVal.add, List.sum_cons, ih]
      ring_nf

lemma nansum_map_finite {α : Type} (l : List α) (f : α → RVal) (g : α → ℚ)
    (h : ∀ a ∈ l, f a = RVal.finite (g a)) :
    nansum (l.map f) = RVal.finite (l.map g).sum := by
  have hmap : l.map f = (l.map g).map RVal.finite := by
    rw [List.map_map]
    exact List.map_congr_left h
  rw [hmap]
  unfold nansum
  rw [List.filter_eq_self.mpr]
  · exact foldl_add_finite (l.map g) 0 |>.trans (by rw [zero_add])
  · intro x hx
    obtain ⟨q, _, rfl⟩ := List.mem_map.mp hx
    simp [RVal.isNan]

lemma sum_map_zero {α : Type} (l : List α) : (l.map fun _ => (0 : ℚ)).sum = 0 := by
  induction l with
  | nil => simp
  | cons a tl ih => simp [ih]

/-- calculate_time_series on an input whose distinct-timestamp list is
t0 :: rest produces one row per distinct timestamp. -/
lemma calculate_time_series_eq (samples : List Sample) (t0 : ℤ) (rest : List ℤ)
    (hts : uniqueTimestamps samples = t0 :: rest) :
    calculate_time_series samples =
      some ((t0 :: rest).map fun t =>
        timeSeriesEntry (samplesAt samples t0) (samplesAt samples t) t) := by
  unfold calculate_time_series
  rw [hts]

lemma uniqueTimestamps_ne_nil (samples : List Sample) (h : samples ≠ []) :
    uniqueTimestamps samples ≠ [] := by
  intro hcon
  apply h
  have hperm := List.perm_insertionSort (fun a b : ℤ => a ≤ b)
    (samples.map Sample.timestamp).dedup
  rw [uniqueTimestamps] at hcon
  rw [hcon] at hperm
  have hdedup : (samples.map Sample.timestamp).dedup = [] := hperm.symm.eq_nil
  have : samples.map Sample.timestamp = [] := (List.dedup_eq_nil _).mp hdedup
  exact List.map_eq_nil_iff.mp this

lemma weightedMeanOf_nil : weightedMeanOf [] = RVal.nan := by
  simp [weightedMeanOf, nansum, RVal.div]

lemma errorSqOf_nil : errorSqOf [] = RVal.inf := by
  simp [errorSqOf, nansum, RVal.div]

/-! ## Claim theorems -/

/-- C6: calculate_time_series on an empty overall input fails (the code
evaluates unique_timestamps[0] on an empty list and raises; in the
embedding the computation yields no result). -/
theorem calculate_time_series_empty_input_fails :
    calculate_time_series [] = none := rfl

/-- C8 counterexample: on the three-location two-timestamp scenario with
all uncertainties 1, the code returns the propagated uncertainty
sqrt(2/3) at both timesteps (each joined pair combines the target and the
reference uncertainty, so sigma^2 = 2 and sum(1/sigma^2) = 3/2), not the
claimed sqrt(1/3): the squared uncertainty is 2/3, and 2/3 is not 1/3. -/
theorem c8_scenario_counterexample :
    calculate_time_series
      [⟨(1, 0), 0, 10, RVal.finite 1⟩, ⟨(2, 0), 0, 20, RVal.finite 1⟩,
       ⟨(3, 0), 0, 5, RVal.finite 1⟩, ⟨(1, 0), 1, 10, RVal.finite 1⟩,
       ⟨(2, 0), 1, 18, RVal.finite 1⟩, ⟨(3, 0), 1, 4, RVal.finite 1⟩] =
      some [⟨0, RVal.finite 0, RVal.finite (2 / 3)⟩,
            ⟨1, RVal.finite (-1), RVal.finite (2 / 3)⟩] ∧
    RVal.finite ((2 : ℚ) / 3) ≠ RVal.finite ((1 : ℚ) / 3) := by
  constructor
  · norm_num [calculate_time_series, uniqueTimestamps, samplesAt, timeSeriesEntry,
      sjoinPairs, weightedMeanOf, errorSqOf, nansum, sigmaSqOf, diffOf,
      List.insertionSort, List.orderedInsert, List.dedup, RVal.add, RVal.sq, RVal.div,
      RVal.isNan, List.filter_cons, Prod.mk.injEq]
  · intro h
    have h2 : (2 : ℚ) / 3 = 1 / 3 := by injection h
    norm_num at h2

/-- C8 amended: on the scenario input (locations A B C, timestamps t0 t1,
elevations A 10 10, B 20 18, C 5 4, all uncertainties 1) the series is
[(t0, 0, sqrt(2/3)), (t1, -1, sqrt(2/3))]: the weighted means of the claim
are reproduced but both propagated uncertainties are sqrt(2/3) (squared
value 2/3), each pair combining reference and target uncertainty. -/
theorem c8_scenario_amended :
    calculate_time_series
      [⟨(1, 0), 0, 10, RVal.finite 1⟩, ⟨(2, 0), 0, 20, RVal.finite 1⟩,
       ⟨(3, 0), 0, 5, RVal.finite 1⟩, ⟨(1, 0), 1, 10, RVal.finite 1⟩,
       ⟨(2, 0), 1, 18, RVal.finite 1⟩, ⟨(3, 0), 1, 4, RVal.finite 1⟩] =
      some [⟨0, RVal.finite 0, RVal.finite (2 / 3)⟩,
            ⟨1, RVal.finite (-1), RVal.finite (2 / 3)⟩] := by
  norm_num [calculate_time_series, uniqueTimestamps, samplesAt, timeSeriesEntry,
    sjoinPairs, weightedMeanOf, errorSqOf, nansum, sigmaSqOf, diffOf,
    List.insertionSort, List.orderedInsert, List.dedup, RVal.add, RVal.sq, RVal.div,
    RVal.isNan, List.filter_cons, Prod.mk.injEq]

/-- C4 counterexample: a location with a single sample (one timestamp) is
not skipped by calculate_rate_of_change_map: the code runs lstsq on the
rank-deficient 1-by-2 system, obtains the minimum-norm solution
m = e * t / (t^2 + 1) = 5/2 for (t, e) = (1, 5), and emits an output row
(rate 5/2 * 31536000 = 78840000) for the location, contradicting the
claimed empty output. -/
theorem c4_single_point_counterexample :
    calculate_rate_of_change_map [⟨(1, 0), 1, 5, RVal.finite 1⟩] =
      [⟨(1, 0), 78840000⟩] ∧
    ([⟨(1, 0), 78840000⟩] : List PixelTrend) ≠ [] := by
  constructor
  · norm_num [calculate_rate_of_change_map, groupPoints, pixelGroup, lstsqSlope,
      List.insertionSort, List.orderedInsert, List.dedup]
  · simp

/-- C4 amended: calculate_rate_of_change_map emits exactly one PixelTrend
per distinct spatial location of the input, including locations with fewer
than 2 distinct timestamps (those receive the minimum-norm least-squares
slope of the rank-deficient system instead of being skipped); no location
aborts processing of the others. -/
theorem calculate_rate_of_change_map_locations (samples : List Sample) :
    (calculate_rate_of_change_map samples).map PixelTrend.loc =
      (samples.map Sample.loc).dedup := by
  unfold calculate_rate_of_change_map
  rw [List.map_map]
  have hid : (PixelTrend.loc ∘ fun l =>
      (⟨l, lstsqSlope (groupPoints samples l) * (60 * 60 * 24 * 365)⟩ : PixelTrend)) = id := rfl
  rw [hid, List.map_id]

/-- C5 counterexample: a sample with zero uncertainty is not excluded from
the weighted computation for its timestamp.  With the reference sample at
uncertainty 1 and the t=1 sample at uncertainty 0, the joined pair has
sigma^2 = 1 and the t=1 weighted mean is the finite value 2 (the pair
fully contributes); under the claimed exclusion no pair would remain at
t=1 and the mean there would be NaN. -/
theorem c5_zero_uncertainty_counterexample :
    calculate_time_series
      [⟨(1, 0), 0, 10, RVal.finite 1⟩, ⟨(1, 0), 1, 12, RVal.finite 0⟩] =
      some [⟨0, RVal.finite 0, RVal.finite 2⟩, ⟨1, RVal.finite 2, RVal.finite 1⟩] ∧
    RVal.finite 2 ≠ RVal.nan := by
  constructor
  · norm_num [calculate_time_series, uniqueTimestamps, samplesAt, timeSeriesEntry,
      sjoinPairs, weightedMeanOf, errorSqOf, nansum, sigmaSqOf, diffOf,
      List.insertionSort, List.orderedInsert, List.dedup, RVal.add, RVal.sq, RVal.div,
      RVal.isNan, List.filter_cons, Prod.mk.injEq]
  · simp

/-- C3: for every non-empty input the returned sequence has exactly one
entry per distinct input timestamp: the output timestamps are strictly
ascending (hence pairwise distinct) and a timestamp appears in the output
exactly when it appears in the input. -/
theorem calculate_time_series_timestamps (samples : List Sample)
    (hne : samples ≠ []) :
    ∃ out, calculate_time_series samples = some out ∧
      List.Sorted (fun a b : ℤ => a < b) (out.map TimeSeriesPoint.timestamp) ∧
      ∀ t : ℤ, t ∈ out.map TimeSeriesPoint.timestamp ↔
        t ∈ samples.map Sample.timestamp := by
  obtain ⟨t0, rest, hts⟩ : ∃ t0 rest, uniqueTimestamps samples = t0 :: rest := by
    cases hu : uniqueTimestamps samples with
    | nil => exact absurd hu (uniqueTimestamps_ne_nil samples hne)
    | cons a l => exact ⟨a, l, rfl⟩
  refine ⟨_, calculate_time_series_eq samples t0 rest hts, ?_, ?_⟩
  all_goals
    have hmap : ((t0 :: rest).map fun t =>
        timeSeriesEntry (samplesAt samples t0) (samplesAt samples t) t).map
          TimeSeriesPoint.timestamp = uniqueTimestamps samples := by
      rw [List.map_map, hts.symm]
      have hid : (TimeSeriesPoint.timestamp ∘ fun t =>
          timeSeriesEntry (samplesAt samples t0) (samplesAt samples t) t) = id := rfl
      rw [hid, List.map_id]
  · rw [hmap]
    have hsorted : List.Sorted (fun a b : ℤ => a ≤ b) (uniqueTimestamps samples) :=
      List.sorted_insertionSort (fun a b : ℤ => a ≤ b)
        (samples.map Sample.timestamp).dedup
    have hnodup : (uniqueTimestamps samples).Nodup :=
      (List.perm_insertionSort (fun a b : ℤ => a ≤ b)
        (samples.map Sample.timestamp).dedup).nodup_iff.mpr
        (List.nodup_dedup _)
    exact List.Sorted.lt_of_le hsorted hnodup
  · intro t
    rw [hmap]
    have hperm := List.perm_insertionSort (fun a b : ℤ => a ≤ b)
      (samples.map Sample.timestamp).dedup
    rw [uniqueTimestamps, hperm.mem_iff, List.mem_dedup]

/-- C10: when a timestamp's sample set has no location-matched pair with
the reference set, calculate_time_series still evaluates totally and that
timestamp's row carries weighted mean NaN (the IEEE quotient 0/0 of the
two empty sums) and squared propagated uncertainty +infinity (1/0, whose
square root is again +infinity) — not NaN; every other timestamp's row is
still the normally computed one. -/
theorem calculate_time_series_empty_join_nan_inf
    (samples : List Sample) (t0 : ℤ) (rest : List ℤ) (t : ℤ)
    (hts : uniqueTimestamps samples = t0 :: rest) (ht : t ∈ t0 :: rest)
    (hempty : pairsAt samples t0 t = []) :
    ∃ out, calculate_time_series samples = some out ∧
      (⟨t, RVal.nan, RVal.inf⟩ : TimeSeriesPoint) ∈ out ∧
      RVal.inf ≠ RVal.nan ∧
      out.length = (t0 :: rest).length ∧
      ∀ u ∈ t0 :: rest,
        (⟨u, weightedMeanOf (pairsAt samples t0 u), errorSqOf (pairsAt samples t0 u)⟩ :
          TimeSeriesPoint) ∈ out := by
  have hjoin : sjoinPairs (samplesAt samples t0) (samplesAt samples t) = [] := hempty
  have hentry : timeSeriesEntry (samplesAt samples t0) (samplesAt samples t) t
      = ⟨t, RVal.nan, RVal.inf⟩ := by
    unfold timeSeriesEntry
    rw [hjoin, weightedMeanOf_nil, errorSqOf_nil]
  refine ⟨_, calculate_time_series_eq samples t0 rest hts, ?_, by simp, ?_, ?_⟩
  · have hmem : timeSeriesEntry (samplesAt samples t0) (samplesAt samples t) t ∈
        List.map (fun u => timeSeriesEntry (samplesAt samples t0) (samplesAt samples u) u)
          (t0 :: rest) :=
      List.mem_map_of_mem _ ht
    rwa [hentry] at hmem
  · rw [List.length_map]
  · intro u hu
    have hmem2 : timeSeriesEntry (samplesAt samples t0) (samplesAt samples u) u ∈
        List.map (fun v => timeSeriesEntry (samplesAt samples t0) (samplesAt samples v) v)
          (t0 :: rest) :=
      List.mem_map_of_mem _ hu
    exact hmem2

/-- C10 witness: a two-sample input whose two locations never match; the
hypotheses of calculate_time_series_empty_join_nan_inf hold and its
conclusion follows at this input. -/
theorem calculate_time_series_empty_join_nan_inf_witness :
    uniqueTimestamps [⟨(3, 0), 0, 7, RVal.finite 1⟩, ⟨(4, 0), 5, 9, RVal.finite 1⟩]
      = 0 :: [5] ∧
    (5 : ℤ) ∈ (0 : ℤ) :: [5] ∧
    pairsAt [⟨(3, 0), 0, 7, RVal.finite 1⟩, ⟨(4, 0), 5, 9, RVal.finite 1⟩] 0 5 = [] ∧
    (∃ out, calculate_time_series
        [⟨(3, 0), 0, 7, RVal.finite 1⟩, ⟨(4, 0), 5, 9, RVal.finite 1⟩] = some out ∧
      (⟨5, RVal.nan, RVal.inf⟩ : TimeSeriesPoint) ∈ out ∧
      RVal.inf ≠ RVal.nan ∧
      out.length = ((0 : ℤ) :: [5]).length ∧
      ∀ u ∈ (0 : ℤ) :: [5],
        (⟨u, weightedMeanOf (pairsAt
            [⟨(3, 0), 0, 7, RVal.finite 1⟩, ⟨(4, 0), 5, 9, RVal.finite 1⟩] 0 u),
          errorSqOf (pairsAt
            [⟨(3, 0), 0, 7, RVal.finite 1⟩, ⟨(4, 0), 5, 9, RVal.finite 1⟩] 0 u)⟩ :
          TimeSeriesPoint) ∈ out) :=
  ⟨by decide, by decide, by decide,
    calculate_time_series_empty_join_nan_inf _ 0 [5] 5 (by decide) (by decide) (by decide)⟩

/-- C7 counterexample: on an input where the t=1 sample set shares no
location with the reference set, the t=1 row's propagated uncertainty is
+infinity (sqrt(1/0)), which is not a not-a-number result: the claim's
"undefined / not-a-number" description of the uncertainty fails (only the
weighted mean is NaN). -/
theorem c7_uncertainty_not_nan_counterexample :
    calculate_time_series [⟨(1, 0), 0, 10, RVal.finite 1⟩, ⟨(2, 0), 1, 12, RVal.finite 1⟩]
      = some [⟨0, RVal.finite 0, RVal.finite 2⟩, ⟨1, RVal.nan, RVal.inf⟩] ∧
    RVal.inf ≠ RVal.nan := by
  constructor
  · norm_num [calculate_time_series, uniqueTimestamps, samplesAt, timeSeriesEntry,
      sjoinPairs, weightedMeanOf, errorSqOf, nansum, sigmaSqOf, diffOf,
      List.insertionSort, List.orderedInsert, List.dedup, RVal.add, RVal.sq, RVal.div,
      RVal.isNan, List.filter_cons, Prod.mk.injEq]
  · simp

/-- C7 amended: when a timestamp's sample set shares no spatial location
with the reference set, that timestamp's row carries a NaN weighted mean
and a propagated uncertainty of +infinity (a non-finite no-data value, but
not NaN); the computation never raises, and the failure is local: the
output still has one row for every distinct input timestamp. -/
theorem calculate_time_series_empty_join_is_local
    (samples : List Sample) (t0 : ℤ) (rest : List ℤ) (t : ℤ)
    (hts : uniqueTimestamps samples = t0 :: rest) (ht : t ∈ t0 :: rest)
    (hempty : pairsAt samples t0 t = []) :
    ∃ out, calculate_time_series samples = some out ∧
      out.map TimeSeriesPoint.timestamp = t0 :: rest ∧
      (⟨t, RVal.nan, RVal.inf⟩ : TimeSeriesPoint) ∈ out := by
  have hjoin : sjoinPairs (samplesAt samples t0) (samplesAt samples t) = [] := hempty
  have hentry : timeSeriesEntry (samplesAt samples t0) (samplesAt samples t) t
      = ⟨t, RVal.nan, RVal.inf⟩ := by
    unfold timeSeriesEntry
    rw [hjoin, weightedMeanOf_nil, errorSqOf_nil]
  refine ⟨_, calculate_time_series_eq samples t0 rest hts, ?_, ?_⟩
  · rw [List.map_map]
    have hid : (TimeSeriesPoint.timestamp ∘ fun u =>
        timeSeriesEntry (samplesAt samples t0) (samplesAt samples u) u) = id := rfl
    rw [hid, List.map_id]
  · have hmem : timeSeriesEntry (samplesAt samples t0) (samplesAt samples t) t ∈
        List.map (fun u => timeSeriesEntry (samplesAt samples t0) (samplesAt samples u) u)
          (t0 :: rest) :=
      List.mem_map_of_mem _ ht
    rwa [hentry] at hmem

/-- C7 witness: a two-sample two-location input on which the hypotheses of
calculate_time_series_empty_join_is_local hold and its conclusion follows. -/
theorem calculate_time_series_empty_join_is_local_witness :
    uniqueTimestamps [⟨(1, 0), 0, 10, RVal.finite 1⟩, ⟨(2, 0), 1, 12, RVal.finite 1⟩]
      = 0 :: [1] ∧
    (1 : ℤ) ∈ (0 : ℤ) :: [1] ∧
    pairsAt [⟨(1, 0), 0, 10, RVal.finite 1⟩, ⟨(2, 0), 1, 12, RVal.finite 1⟩] 0 1 = [] ∧
    (∃ out, calculate_time_series
        [⟨(1, 0), 0, 10, RVal.finite 1⟩, ⟨(2, 0), 1, 12, RVal.finite 1⟩] = some out ∧
      out.map TimeSeriesPoint.timestamp = (0 : ℤ) :: [1] ∧
      (⟨1, RVal.nan, RVal.inf⟩ : TimeSeriesPoint) ∈ out) :=
  ⟨by decide, by decide, by decide,
    calculate_time_series_empty_join_is_local _ 0 [1] 1 (by decide) (by decide) (by decide)⟩

/-- C3 witness: a non-empty concrete input at which the hypothesis of
calculate_time_series_timestamps holds and its conclusion follows. -/
theorem calculate_time_series_timestamps_witness :
    ([⟨(1, 0), 2, 10, RVal.finite 1⟩, ⟨(1, 0), 0, 12, RVal.finite 1⟩] : List Sample) ≠ [] ∧
    (∃ out, calculate_time_series
        [⟨(1, 0), 2, 10, RVal.finite 1⟩, ⟨(1, 0), 0, 12, RVal.finite 1⟩] = some out ∧
      List.Sorted (fun a b : ℤ => a < b) (out.map TimeSeriesPoint.timestamp) ∧
      ∀ t : ℤ, t ∈ out.map TimeSeriesPoint.timestamp ↔
        t ∈ ([⟨(1, 0), 2, 10, RVal.finite 1⟩,
              ⟨(1, 0), 0, 12, RVal.finite 1⟩] : List Sample).map Sample.timestamp) :=
  ⟨by decide, calculate_time_series_timestamps _ (by decide)⟩

lemma RVal.isNan_iff (x : RVal) : x.isNan = true ↔ x = RVal.nan := by
  cases x <;> simp [RVal.isNan]

lemma RVal.div_nan (x : RVal) : RVal.div x RVal.nan = RVal.nan := by
  cases x <;> rfl

lemma filter_not_nan_map_filter {α : Type} (l : List α) (f : α → RVal) (P : α → Bool)
    (h : ∀ a ∈ l, P a = false → f a = RVal.nan) :
    ((l.filter P).map f).filter (fun x => ! x.isNan) =
      (l.map f).filter (fun x => ! x.isNan) := by
  induction l with
  | nil => rfl
  | cons a tl ih =>
      have ihtl := ih fun b hb hPb => h b (List.mem_cons_of_mem a hb) hPb
      cases hPa : P a with
      | true => simp [List.filter_cons, hPa, ihtl]
      | false =>
          have hfa : f a = RVal.nan := h a (List.mem_cons_self a tl) hPa
          have hnn : RVal.nan.isNan = true := rfl
          simp [List.filter_cons, hPa, hfa, hnn, ihtl]

lemma nansum_filter_not_nan {α : Type} (l : List α) (f : α → RVal) (P : α → Bool)
    (h : ∀ a ∈ l, P a = false → f a = RVal.nan) :
    nansum ((l.filter P).map f) = nansum (l.map f) := by
  unfold nansum
  rw [filter_not_nan_map_filter l f P h]

/-- C5 amended: in the weighted computation of a timestamp only joined
pairs whose combined sigma^2 is NaN (a NaN or missing uncertainty on
either side) are excluded — the NaN-skipping sums drop exactly their
terms, so both the weighted mean and the squared propagated uncertainty
are unchanged when such pairs are removed up front; zero or negative
uncertainties are not excluded (see the counterexample); and no sample
ever makes the computation fail: on any non-empty input the whole series
is produced. -/
theorem weighted_computation_excludes_only_nan_uncertainty
    (pairs : List (Sample × Sample)) (samples : List Sample) (hne : samples ≠ []) :
    weightedMeanOf pairs =
      weightedMeanOf (pairs.filter fun p => ! (sigmaSqOf p).isNan) ∧
    errorSqOf pairs =
      errorSqOf (pairs.filter fun p => ! (sigmaSqOf p).isNan) ∧
    ∃ out, calculate_time_series samples = some out := by
  have hnan : ∀ (g : Sample × Sample → RVal),
      (∀ p : Sample × Sample, sigmaSqOf p = RVal.nan → g p = RVal.nan) →
      nansum ((pairs.filter fun p => ! (sigmaSqOf p).isNan).map g) =
        nansum (pairs.map g) := by
    intro g hg
    apply nansum_filter_not_nan
    intro p _ hPp
    apply hg
    have hb : (sigmaSqOf p).isNan = true := by
      cases hcase : (sigmaSqOf p).isNan with
      | true => rfl
      | false => rw [hcase] at hPp; simp at hPp
    exact (RVal.isNan_iff _).mp hb
  refine ⟨?_, ?_, ?_⟩
  · unfold weightedMeanOf
    rw [hnan (fun p => RVal.div (RVal.finite (diffOf p)) (sigmaSqOf p))
        (fun p hp => by
          have hd : RVal.div (RVal.finite (diffOf p)) (sigmaSqOf p) = RVal.nan := by
            rw [hp]; exact RVal.div_nan _
          exact hd),
      hnan (fun p => RVal.div (RVal.finite 1) (sigmaSqOf p))
        (fun p hp => by
          have hd : RVal.div (RVal.finite 1) (sigmaSqOf p) = RVal.nan := by
            rw [hp]; exact RVal.div_nan _
          exact hd)]
  · unfold errorSqOf
    rw [hnan (fun p => RVal.div (RVal.finite 1) (sigmaSqOf p))
        (fun p hp => by
          have hd : RVal.div (RVal.finite 1) (sigmaSqOf p) = RVal.nan := by
            rw [hp]; exact RVal.div_nan _
          exact hd)]
  · obtain ⟨t0, rest, hts⟩ : ∃ t0 rest, uniqueTimestamps samples = t0 :: rest := by
      cases hu : uniqueTimestamps samples with
      | nil => exact absurd hu (uniqueTimestamps_ne_nil samples hne)
      | cons a l => exact ⟨a, l, rfl⟩
    exact ⟨_, calculate_time_series_eq samples t0 rest hts⟩

/-- C5 witness: a pair list whose single pair has a NaN uncertainty on the
left side, and a non-empty sample list; the hypothesis of
weighted_computation_excludes_only_nan_uncertainty holds and its
conclusion follows at these inputs. -/
theorem weighted_computation_excludes_only_nan_uncertainty_witness :
    ([⟨(1, 0), 0, 3, RVal.finite 1⟩] : List Sample) ≠ [] ∧
    (weightedMeanOf [(⟨(1, 0), 0, 3, RVal.nan⟩, ⟨(1, 0), 1, 4, RVal.finite 1⟩)] =
      weightedMeanOf ([(⟨(1, 0), 0, 3, RVal.nan⟩, ⟨(1, 0), 1, 4, RVal.finite 1⟩)].filter
        fun p => ! (sigmaSqOf p).isNan) ∧
    errorSqOf [(⟨(1, 0), 0, 3, RVal.nan⟩, ⟨(1, 0), 1, 4, RVal.finite 1⟩)] =
      errorSqOf ([(⟨(1, 0), 0, 3, RVal.nan⟩, ⟨(1, 0), 1, 4, RVal.finite 1⟩)].filter
        fun p => ! (sigmaSqOf p).isNan) ∧
    ∃ out, calculate_time_series [⟨(1, 0), 0, 3, RVal.finite 1⟩] = some out) :=
  ⟨by decide,
    weighted_computation_excludes_only_nan_uncertainty
      [(⟨(1, 0), 0, 3, RVal.nan⟩, ⟨(1, 0), 1, 4, RVal.finite 1⟩)]
      [⟨(1, 0), 0, 3, RVal.finite 1⟩] (by decide)⟩

lemma eq_singleton_of_mem_of_length_le_one {α : Type} {l : List α} {a : α}
    (ha : a ∈ l) (hlen : l.length ≤ 1) : l = [a] := by
  cases l with
  | nil => cases ha
  | cons x tl =>
      cases tl with
      | nil =>
          obtain rfl := List.mem_singleton.mp ha
          rfl
      | cons y tl2 => simp at hlen

lemma flatMap_eq_map_of_singleton {α β : Type} (l : List α) (f : α → List β) (g : α → β)
    (h : ∀ a ∈ l, f a = [g a]) : l.flatMap f = l.map g := by
  induction l with
  | nil => rfl
  | cons a tl ih =>
      rw [List.flatMap_cons, h a (List.mem_cons_self a tl),
        ih fun b hb => h b (List.mem_cons_of_mem a hb), List.map_cons]
      rfl

lemma count_le_one_of_pairwise (samples : List Sample)
    (hpw : List.Pairwise
      (fun a b : Sample => ¬(a.loc = b.loc ∧ a.timestamp = b.timestamp)) samples) :
    ∀ (l : ℚ × ℚ) (t : ℤ),
      (samples.filter fun s => decide (s.loc = l) && decide (s.timestamp = t)).length ≤ 1 := by
  induction hpw with
  | nil => intro l t; simp
  | @cons a tl ha _ ih =>
      intro l t
      by_cases hc : a.loc = l ∧ a.timestamp = t
      · have hnone : (tl.filter fun s => decide (s.loc = l) && decide (s.timestamp = t)) = [] := by
          rw [List.filter_eq_nil_iff]
          intro b hb
          simp only [Bool.and_eq_true, decide_eq_true_eq, not_and]
          intro hbl hbt
          exact (ha b hb) ⟨hc.1.trans hbl.symm, hc.2.trans hbt.symm⟩
        simp [List.filter_cons, hc.1, hc.2, hnone]
      · have hskip : (decide (a.loc = l) && decide (a.timestamp = t)) = false := by
          rcases not_and_or.mp hc with h1 | h1 <;> simp [h1]
        simp only [List.filter_cons, hskip, Bool.false_eq_true, if_false]
        exact ih l t

/-- C9: on a non-empty input in which each spatial location occurs at most
once per timestamp and every uncertainty is finite and strictly positive,
the first output row — the one for the reference (minimum) timestamp —
has weighted mean elevation difference 0: the self-join pairs every
reference sample exactly with itself, so every difference is 0. -/
theorem calculate_time_series_reference_entry_zero
    (samples : List Sample) (hne : samples ≠ [])
    (hcount : ∀ (l : ℚ × ℚ) (t : ℤ),
      (samples.filter fun s => decide (s.loc = l) && decide (s.timestamp = t)).length ≤ 1)
    (hunc : ∀ s ∈ samples, ∃ q : ℚ, s.uncertainty = RVal.finite q ∧ 0 < q) :
    ∃ t0 rest out, uniqueTimestamps samples = t0 :: rest ∧
      calculate_time_series samples = some out ∧
      ∃ e tail2, out = e :: tail2 ∧ e.timestamp = t0 ∧
        e.weighted_mean = RVal.finite 0 := by
  obtain ⟨t0, rest, hts⟩ : ∃ t0 rest, uniqueTimestamps samples = t0 :: rest := by
    cases hu : uniqueTimestamps samples with
    | nil => exact absurd hu (uniqueTimestamps_ne_nil samples hne)
    | cons a l => exact ⟨a, l, rfl⟩
  have hfilter : ∀ r ∈ samplesAt samples t0,
      ((samplesAt samples t0).filter fun s => decide (s.loc = r.loc)) = [r] := by
    intro r hr
    apply eq_singleton_of_mem_of_length_le_one
    · exact List.mem_filter.mpr ⟨hr, by simp⟩
    · unfold samplesAt
      rw [List.filter_filter]
      exact hcount r.loc t0
  have hdiag : sjoinPairs (samplesAt samples t0) (samplesAt samples t0) =
      (samplesAt samples t0).map fun r => (r, r) := by
    unfold sjoinPairs
    apply flatMap_eq_map_of_singleton
    intro r hr
    rw [hfilter r hr]
    rfl
  have hsig : ∀ r ∈ samplesAt samples t0,
      ∃ q : ℚ, sigmaSqOf (r, r) = RVal.finite q ∧ 0 < q := by
    intro r hr
    obtain ⟨q, hq, hqpos⟩ := hunc r (List.mem_of_mem_filter hr)
    refine ⟨q ^ 2 + q ^ 2, ?_, by positivity⟩
    simp [sigmaSqOf, RVal.sq, hq, RVal.add]
  have hterm1 : ∀ p ∈ (samplesAt samples t0).map fun r => (r, r),
      RVal.div (RVal.finite (diffOf p)) (sigmaSqOf p) =
        RVal.finite ((fun _ => (0 : ℚ)) p) := by
    intro p hp
    obtain ⟨r, hr, rfl⟩ := List.mem_map.mp hp
    obtain ⟨q, hq, hqpos⟩ := hsig r hr
    rw [show diffOf (r, r) = 0 from sub_self _, hq,
      RVal.div_finite_of_ne 0 q (ne_of_gt hqpos), zero_div]
  have hterm2 : ∀ p ∈ (samplesAt samples t0).map fun r => (r, r),
      RVal.div (RVal.finite 1) (sigmaSqOf p) =
        RVal.finite ((fun p => 1 / (sigmaSqOf p).toQ) p) := by
    intro p hp
    obtain ⟨r, hr, rfl⟩ := List.mem_map.mp hp
    obtain ⟨q, hq, hqpos⟩ := hsig r hr
    show RVal.div (RVal.finite 1) (sigmaSqOf (r, r)) =
      RVal.finite (1 / (sigmaSqOf (r, r)).toQ)
    rw [hq, RVal.div_finite_of_ne 1 q (ne_of_gt hqpos)]
    simp [RVal.toQ]
  have hrefne : samplesAt samples t0 ≠ [] := by
    have ht0mem : t0 ∈ uniqueTimestamps samples := by
      rw [hts]
      exact List.mem_cons_self t0 rest
    rw [uniqueTimestamps] at ht0mem
    have h2 : t0 ∈ (samples.map Sample.timestamp).dedup :=
      (List.perm_insertionSort (fun a b : ℤ => a ≤ b) _).mem_iff.mp ht0mem
    obtain ⟨s, hs, hst⟩ := List.mem_map.mp (List.mem_dedup.mp h2)
    exact List.ne_nil_of_mem (List.mem_filter.mpr ⟨hs, by simp [hst]⟩)
  have hpos : 0 < (((samplesAt samples t0).map fun r => (r, r)).map
      fun p => 1 / (sigmaSqOf p).toQ).sum := by
    apply List.sum_pos
    · intro x hx
      obtain ⟨p, hp, rfl⟩ := List.mem_map.mp hx
      obtain ⟨r, hr, rfl⟩ := List.mem_map.mp hp
      obtain ⟨q, hq, hqpos⟩ := hsig r hr
      rw [hq]
      simp only [RVal.toQ]
      positivity
    · simp only [ne_eq, List.map_eq_nil_iff]
      exact hrefne
  have hmean : weightedMeanOf
      (sjoinPairs (samplesAt samples t0) (samplesAt samples t0)) = RVal.finite 0 := by
    unfold weightedMeanOf
    rw [hdiag, nansum_map_finite _ _ _ hterm1, sum_map_zero,
      nansum_map_finite _ _ _ hterm2,
      RVal.div_finite_of_ne 0 _ (ne_of_gt hpos), zero_div]
  exact ⟨t0, rest,
    (t0 :: rest).map fun t =>
      timeSeriesEntry (samplesAt samples t0) (samplesAt samples t) t,
    hts, calculate_time_series_eq samples t0 rest hts,
    timeSeriesEntry (samplesAt samples t0) (samplesAt samples t0) t0,
    rest.map fun t => timeSeriesEntry (samplesAt samples t0) (samplesAt samples t) t,
    List.map_cons _ _ _, rfl, hmean⟩

/-- C9 witness: a two-sample one-location input (one sample per
timestamp, positive finite uncertainties) at which the hypotheses of
calculate_time_series_reference_entry_zero hold and its conclusion
follows. -/
theorem calculate_time_series_reference_entry_zero_witness :
    ([⟨(1, 0), 0, 10, RVal.finite 1⟩, ⟨(1, 0), 3, 11, RVal.finite 2⟩] : List Sample) ≠ [] ∧
    (∀ (l : ℚ × ℚ) (t : ℤ),
      (([⟨(1, 0), 0, 10, RVal.finite 1⟩, ⟨(1, 0), 3, 11, RVal.finite 2⟩] : List Sample).filter
        fun s => decide (s.loc = l) && decide (s.timestamp = t)).length ≤ 1) ∧
    (∀ s ∈ ([⟨(1, 0), 0, 10, RVal.finite 1⟩, ⟨(1, 0), 3, 11, RVal.finite 2⟩] : List Sample),
      ∃ q : ℚ, s.uncertainty = RVal.finite q ∧ 0 < q) ∧
    (∃ t0 rest out, uniqueTimestamps
        [⟨(1, 0), 0, 10, RVal.finite 1⟩, ⟨(1, 0), 3, 11, RVal.finite 2⟩] = t0 :: rest ∧
      calculate_time_series
        [⟨(1, 0), 0, 10, RVal.finite 1⟩, ⟨(1, 0), 3, 11, RVal.finite 2⟩] = some out ∧
      ∃ e tail2, out = e :: tail2 ∧ e.timestamp = t0 ∧
        e.weighted_mean = RVal.finite 0) := by
  have hcount := count_le_one_of_pairwise
    [⟨(1, 0), 0, 10, RVal.finite 1⟩, ⟨(1, 0), 3, 11, RVal.finite 2⟩] (by decide)
  have hunc : ∀ s ∈ ([⟨(1, 0), 0, 10, RVal.finite 1⟩,
      ⟨(1, 0), 3, 11, RVal.finite 2⟩] : List Sample),
      ∃ q : ℚ, s.uncertainty = RVal.finite q ∧ 0 < q := by
    intro s hs
    rcases List.mem_cons.mp hs with rfl | hs2
    · exact ⟨1, rfl, by norm_num⟩
    rcases List.mem_cons.mp hs2 with rfl | hs3
    · exact ⟨2, rfl, by norm_num⟩
    · cases hs3
  exact ⟨by decide, hcount, hunc,
    calculate_time_series_reference_entry_zero _ (by decide) hcount hunc⟩

/-- C1: for a non-empty input and any of its distinct timestamps t, the
loop pairs the reference-timestamp samples with the samples at t by an
inner join on exact spatial-location equality (a pair exists exactly for
a reference row and a row at t with equal locations — unmatched rows are
dropped), and, provided the join is non-empty and every pair's combined
sigma^2 is finite and positive, the emitted row for t carries the weighted
mean sum(diff_j / sigma_j^2) / sum(1 / sigma_j^2) and the squared
propagated uncertainty 1 / sum(1 / sigma_j^2) (the code takes its square
root), where diff_j = elevation(t) - elevation(t0) and
sigma_j^2 = unc(t)^2 + unc(t0)^2 over the joined pairs. -/
theorem calculate_time_series_weighted_formula
    (samples : List Sample) (t0 : ℤ) (rest : List ℤ) (t : ℤ)
    (hts : uniqueTimestamps samples = t0 :: rest) (ht : t ∈ t0 :: rest)
    (hfin : ∀ p ∈ pairsAt samples t0 t, ∃ q : ℚ, sigmaSqOf p = RVal.finite q ∧ 0 < q)
    (hne : pairsAt samples t0 t ≠ []) :
    (∀ r s : Sample, (r, s) ∈ pairsAt samples t0 t ↔
      (r ∈ samplesAt samples t0 ∧ s ∈ samplesAt samples t ∧ s.loc = r.loc)) ∧
    weightedMeanOf (pairsAt samples t0 t) =
      RVal.finite
        (((pairsAt samples t0 t).map fun p => diffOf p / (sigmaSqOf p).toQ).sum /
          ((pairsAt samples t0 t).map fun p => 1 / (sigmaSqOf p).toQ).sum) ∧
    errorSqOf (pairsAt samples t0 t) =
      RVal.finite (1 / ((pairsAt samples t0 t).map fun p => 1 / (sigmaSqOf p).toQ).sum) ∧
    ∃ out, calculate_time_series samples = some out ∧
      (⟨t, weightedMeanOf (pairsAt samples t0 t), errorSqOf (pairsAt samples t0 t)⟩ :
        TimeSeriesPoint) ∈ out := by
  have hterm1 : ∀ p ∈ pairsAt samples t0 t,
      RVal.div (RVal.finite (diffOf p)) (sigmaSqOf p) =
        RVal.finite ((fun p => diffOf p / (sigmaSqOf p).toQ) p) := by
    intro p hp
    obtain ⟨q, hq, hqpos⟩ := hfin p hp
    show RVal.div (RVal.finite (diffOf p)) (sigmaSqOf p) =
      RVal.finite (diffOf p / (sigmaSqOf p).toQ)
    rw [hq, RVal.div_finite_of_ne _ q (ne_of_gt hqpos)]
    simp [RVal.toQ]
  have hterm2 : ∀ p ∈ pairsAt samples t0 t,
      RVal.div (RVal.finite 1) (sigmaSqOf p) =
        RVal.finite ((fun p => 1 / (sigmaSqOf p).toQ) p) := by
    intro p hp
    obtain ⟨q, hq, hqpos⟩ := hfin p hp
    show RVal.div (RVal.finite 1) (sigmaSqOf p) = RVal.finite (1 / (sigmaSqOf p).toQ)
    rw [hq, RVal.div_finite_of_ne 1 q (ne_of_gt hqpos)]
    simp [RVal.toQ]
  have hpos : 0 < ((pairsAt samples t0 t).map fun p => 1 / (sigmaSqOf p).toQ).sum := by
    apply List.sum_pos
    · intro x hx
      obtain ⟨p, hp, rfl⟩ := List.mem_map.mp hx
      obtain ⟨q, hq, hqpos⟩ := hfin p hp
      rw [hq]
      simp only [RVal.toQ]
      positivity
    · simp only [ne_eq, List.map_eq_nil_iff]
      exact hne
  refine ⟨?_, ?_, ?_, ?_⟩
  · intro r s
    unfold pairsAt sjoinPairs
    simp only [List.mem_flatMap, List.mem_map, List.mem_filter, decide_eq_true_eq,
      Prod.mk.injEq]
    constructor
    · rintro ⟨a, ha, s2, ⟨hs2, hloc⟩, h1, h2⟩
      subst h1
      subst h2
      exact ⟨ha, hs2, hloc⟩
    · rintro ⟨hr, hs, hloc⟩
      exact ⟨r, hr, s, ⟨hs, hloc⟩, rfl, rfl⟩
  · unfold weightedMeanOf
    rw [nansum_map_finite _ _ _ hterm1, nansum_map_finite _ _ _ hterm2,
      RVal.div_finite_of_ne _ _ (ne_of_gt hpos)]
  · unfold errorSqOf
    rw [nansum_map_finite _ _ _ hterm2, RVal.div_finite_of_ne 1 _ (ne_of_gt hpos)]
  · refine ⟨_, calculate_time_series_eq samples t0 rest hts, ?_⟩
    have hmem : timeSeriesEntry (samplesAt samples t0) (samplesAt samples t) t ∈
        List.map (fun u => timeSeriesEntry (samplesAt samples t0) (samplesAt samples u) u)
          (t0 :: rest) :=
      List.mem_map_of_mem _ ht
    exact hmem

/-- C1 witness: a two-sample one-location input at which all hypotheses of
calculate_time_series_weighted_formula hold and its conclusion follows. -/
theorem calculate_time_series_weighted_formula_witness :
    uniqueTimestamps [⟨(1, 0), 0, 10, RVal.finite 1⟩, ⟨(1, 0), 1, 12, RVal.finite 1⟩]
      = 0 :: [1] ∧
    (1 : ℤ) ∈ (0 : ℤ) :: [1] ∧
    (∀ p ∈ pairsAt [⟨(1, 0), 0, 10, RVal.finite 1⟩, ⟨(1, 0), 1, 12, RVal.finite 1⟩] 0 1,
      ∃ q : ℚ, sigmaSqOf p = RVal.finite q ∧ 0 < q) ∧
    pairsAt [⟨(1, 0), 0, 10, RVal.finite 1⟩, ⟨(1, 0), 1, 12, RVal.finite 1⟩] 0 1 ≠ [] ∧
    ((∀ r s : Sample,
      (r, s) ∈ pairsAt [⟨(1, 0), 0, 10, RVal.finite 1⟩, ⟨(1, 0), 1, 12, RVal.finite 1⟩] 0 1 ↔
      (r ∈ samplesAt [⟨(1, 0), 0, 10, RVal.finite 1⟩, ⟨(1, 0), 1, 12, RVal.finite 1⟩] 0 ∧
       s ∈ samplesAt [⟨(1, 0), 0, 10, RVal.finite 1⟩, ⟨(1, 0), 1, 12, RVal.finite 1⟩] 1 ∧
       s.loc = r.loc)) ∧
    weightedMeanOf (pairsAt [⟨(1, 0), 0, 10, RVal.finite 1⟩, ⟨(1, 0), 1, 12, RVal.finite 1⟩] 0 1) =
      RVal.finite
        (((pairsAt [⟨(1, 0), 0, 10, RVal.finite 1⟩, ⟨(1, 0), 1, 12, RVal.finite 1⟩] 0 1).map
            fun p => diffOf p / (sigmaSqOf p).toQ).sum /
          ((pairsAt [⟨(1, 0), 0, 10, RVal.finite 1⟩, ⟨(1, 0), 1, 12, RVal.finite 1⟩] 0 1).map
            fun p => 1 / (sigmaSqOf p).toQ).sum) ∧
    errorSqOf (pairsAt [⟨(1, 0), 0, 10, RVal.finite 1⟩, ⟨(1, 0), 1, 12, RVal.finite 1⟩] 0 1) =
      RVal.finite
        (1 / ((pairsAt [⟨(1, 0), 0, 10, RVal.finite 1⟩, ⟨(1, 0), 1, 12, RVal.finite 1⟩] 0 1).map
            fun p => 1 / (sigmaSqOf p).toQ).sum) ∧
    ∃ out, calculate_time_series
        [⟨(1, 0), 0, 10, RVal.finite 1⟩, ⟨(1, 0), 1, 12, RVal.finite 1⟩] = some out ∧
      (⟨1, weightedMeanOf
          (pairsAt [⟨(1, 0), 0, 10, RVal.finite 1⟩, ⟨(1, 0), 1, 12, RVal.finite 1⟩] 0 1),
        errorSqOf
          (pairsAt [⟨(1, 0), 0, 10, RVal.finite 1⟩, ⟨(1, 0), 1, 12, RVal.finite 1⟩] 0 1)⟩ :
        TimeSeriesPoint) ∈ out) := by
  have hpairs : pairsAt [⟨(1, 0), 0, 10, RVal.finite 1⟩, ⟨(1, 0), 1, 12, RVal.finite 1⟩] 0 1
      = [(⟨(1, 0), 0, 10, RVal.finite 1⟩, ⟨(1, 0), 1, 12, RVal.finite 1⟩)] := by decide
  have hfin : ∀ p ∈ pairsAt [⟨(1, 0), 0, 10, RVal.finite 1⟩,
      ⟨(1, 0), 1, 12, RVal.finite 1⟩] 0 1,
      ∃ q : ℚ, sigmaSqOf p = RVal.finite q ∧ 0 < q := by
    intro p hp
    rw [hpairs] at hp
    obtain rfl := List.mem_singleton.mp hp
    refine ⟨2, ?_, by norm_num⟩
    norm_num [sigmaSqOf, RVal.sq, RVal.add]
  have hne : pairsAt [⟨(1, 0), 0, 10, RVal.finite 1⟩, ⟨(1, 0), 1, 12, RVal.finite 1⟩] 0 1
      ≠ [] := by
    rw [hpairs]
    simp
  exact ⟨by decide, by decide, hfin, hne,
    calculate_time_series_weighted_formula _ 0 [1] 1 (by decide) (by decide) hfin hne⟩

lemma sum_affine_sq {α : Type} (l : List α) (f : α → ℚ) (a b : ℚ) :
    (l.map fun x => (a * f x + b) ^ 2).sum =
      a ^ 2 * (l.map fun x => f x ^ 2).sum + 2 * a * b * (l.map f).sum
        + b ^ 2 * l.length := by
  induction l with
  | nil => simp
  | cons x tl ih =>
      simp only [List.map_cons, List.sum_cons, List.length_cons, ih]
      push_cast
      ring

lemma sum_sq_nonneg {α : Type} (l : List α) (f : α → ℚ) :
    0 ≤ (l.map fun x => f x ^ 2).sum := by
  apply List.sum_nonneg
  intro x hx
  obtain ⟨t, _, rfl⟩ := List.mem_map.mp hx
  positivity

lemma all_zero_of_sum_sq_eq_zero {α : Type} (l : List α) (f : α → ℚ)
    (h : (l.map fun x => f x ^ 2).sum = 0) : ∀ x ∈ l, f x = 0 := by
  induction l with
  | nil => intro x hx; cases hx
  | cons x tl ih =>
      simp only [List.map_cons, List.sum_cons] at h
      have h1 : 0 ≤ f x ^ 2 := by positivity
      have h2 : 0 ≤ (tl.map fun y => f y ^ 2).sum := sum_sq_nonneg tl f
      have hx0 : f x ^ 2 = 0 := by linarith
      have htl : (tl.map fun y => f y ^ 2).sum = 0 := by linarith
      intro y hy
      rcases List.mem_cons.mp hy with rfl | hy2
      · exact pow_eq_zero_iff (two_ne_zero) |>.mp hx0
      · exact ih htl y hy2

lemma exists_two_distinct_of_dedup (ts : List ℚ) (h : 2 ≤ ts.dedup.length) :
    ∃ a b, a ∈ ts ∧ b ∈ ts ∧ a ≠ b := by
  match hd : ts.dedup with
  | [] => rw [hd] at h; simp at h
  | [x] => rw [hd] at h; simp at h
  | x :: y :: tl =>
      have hnd := List.nodup_dedup ts
      rw [hd] at hnd
      have hxy : x ≠ y := (List.pairwise_cons.mp hnd).1 y (List.mem_cons_self y tl)
      have hx : x ∈ ts := List.mem_dedup.mp (by rw [hd]; exact List.mem_cons_self _ _)
      have hy : y ∈ ts := List.mem_dedup.mp
        (by rw [hd]; exact List.mem_cons_of_mem _ (List.mem_cons_self _ _))
      exact ⟨x, y, hx, hy, hxy⟩

lemma sum_res (pts : List (ℚ × ℚ)) (m c : ℚ) :
    (pts.map fun p => p.2 - (m * p.1 + c)).sum =
      (pts.map Prod.snd).sum - m * (pts.map Prod.fst).sum - c * pts.length := by
  induction pts with
  | nil => simp
  | cons x tl ih =>
      simp only [List.map_cons, List.sum_cons, List.length_cons, ih]
      push_cast
      ring

lemma sum_tres (pts : List (ℚ × ℚ)) (m c : ℚ) :
    (pts.map fun p => p.1 * (p.2 - (m * p.1 + c))).sum =
      (pts.map fun p => p.1 * p.2).sum - m * (pts.map fun p => p.1 ^ 2).sum
        - c * (pts.map Prod.fst).sum := by
  induction pts with
  | nil => simp
  | cons x tl ih =>
      simp only [List.map_cons, List.sum_cons, ih]
      ring

lemma ssr_shift (pts : List (ℚ × ℚ)) (m c dm dc : ℚ) :
    ssr pts (m + dm) (c + dc) =
      ssr pts m c - 2 * dm * (pts.map fun p => p.1 * (p.2 - (m * p.1 + c))).sum
        - 2 * dc * (pts.map fun p => p.2 - (m * p.1 + c)).sum
        + (pts.map fun p => (dm * p.1 + dc) ^ 2).sum := by
  unfold ssr
  induction pts with
  | nil => simp
  | cons x tl ih =>
      simp only [List.map_cons, List.sum_cons, ih]
      ring

lemma normal_denom_ne_zero (pts : List (ℚ × ℚ))
    (h2 : 2 ≤ (pts.map Prod.fst).dedup.length) :
    (pts.length : ℚ) * (pts.map fun p => p.1 ^ 2).sum - (pts.map Prod.fst).sum ^ 2 ≠ 0 := by
  obtain ⟨a, b, ha, hb, hab⟩ := exists_two_distinct_of_dedup (pts.map Prod.fst) h2
  have hne : pts ≠ [] := by
    intro hnil
    rw [hnil] at h2
    simp at h2
  have hnpos : 0 < (pts.length : ℚ) := by
    have hlen : 0 < pts.length := List.length_pos.mpr hne
    exact_mod_cast hlen
  intro hD
  have hkey := sum_affine_sq pts Prod.fst (pts.length : ℚ) (-(pts.map Prod.fst).sum)
  have hkey2 : (pts.map fun p => ((pts.length : ℚ) * p.1 - (pts.map Prod.fst).sum) ^ 2).sum
      = (pts.length : ℚ) *
        ((pts.length : ℚ) * (pts.map fun p => p.1 ^ 2).sum - (pts.map Prod.fst).sum ^ 2) := by
    simp only [← sub_eq_add_neg] at hkey
    rw [hkey]
    ring
  rw [hD, mul_zero] at hkey2
  have hzero := all_zero_of_sum_sq_eq_zero pts
    (fun p => (pts.length : ℚ) * p.1 - (pts.map Prod.fst).sum) hkey2
  obtain ⟨pa, hpa, hpa1⟩ := List.mem_map.mp ha
  obtain ⟨pb, hpb, hpb1⟩ := List.mem_map.mp hb
  have hza := hzero pa hpa
  have hzb := hzero pb hpb
  apply hab
  rw [← hpa1, ← hpb1]
  have hna : (pts.length : ℚ) * pa.1 = (pts.length : ℚ) * pb.1 := by
    simp only at hza hzb
    linarith
  exact mul_left_cancel₀ (ne_of_gt hnpos) hna

lemma lstsqSlope_full_rank (pts : List (ℚ × ℚ))
    (h2 : 2 ≤ (pts.map Prod.fst).dedup.length) :
    lstsqSlope pts =
      ((pts.length : ℚ) * (pts.map fun p => p.1 * p.2).sum
          - (pts.map Prod.fst).sum * (pts.map Prod.snd).sum)
        / ((pts.length : ℚ) * (pts.map fun p => p.1 ^ 2).sum
          - (pts.map Prod.fst).sum ^ 2) := by
  unfold lstsqSlope
  rw [if_neg (by omega)]

lemma lstsq_minimizes (pts : List (ℚ × ℚ))
    (h2 : 2 ≤ (pts.map Prod.fst).dedup.length) :
    ∀ m c : ℚ, ssr pts (lstsqSlope pts) (lstsqIntercept pts) ≤ ssr pts m c := by
  intro m c
  have hne : pts ≠ [] := by
    intro hnil
    rw [hnil] at h2
    simp at h2
  have hn : ((pts.length : ℚ)) ≠ 0 := by
    have hlen : 0 < pts.length := List.length_pos.mpr hne
    exact_mod_cast Nat.pos_iff_ne_zero.mp hlen
  have hD := normal_denom_ne_zero pts h2
  have hNE1 : (pts.map fun p =>
      p.2 - (lstsqSlope pts * p.1 + lstsqIntercept pts)).sum = 0 := by
    rw [sum_res]
    unfold lstsqIntercept
    field_simp
  have hNE2 : (pts.map fun p =>
      p.1 * (p.2 - (lstsqSlope pts * p.1 + lstsqIntercept pts))).sum = 0 := by
    rw [sum_tres]
    unfold lstsqIntercept
    rw [lstsqSlope_full_rank pts h2]
    field_simp
    ring
  have hss := ssr_shift pts (lstsqSlope pts) (lstsqIntercept pts)
    (m - lstsqSlope pts) (c - lstsqIntercept pts)
  rw [hNE1, hNE2] at hss
  simp only [mul_zero, sub_zero] at hss
  have hmc : lstsqSlope pts + (m - lstsqSlope pts) = m := by ring
  have hcc : lstsqIntercept pts + (c - lstsqIntercept pts) = c := by ring
  rw [hmc, hcc] at hss
  rw [hss]
  have hnn := sum_sq_nonneg pts
    (fun p => (m - lstsqSlope pts) * p.1 + (c - lstsqIntercept pts))
  -- the summand of hnn is ((dm * t + dc))^2 while hss has (dm * t + dc)^2
  linarith [hnn]

lemma lstsqSlope_two_point (t1 t2 e1 e2 : ℚ) (hne12 : t1 ≠ t2) :
    lstsqSlope [(t1, e1), (t2, e2)] = (e2 - e1) / (t2 - t1) := by
  have hcond : ¬ ((([(t1, e1), (t2, e2)] : List (ℚ × ℚ)).map Prod.fst).dedup.length ≤ 1) := by
    have hd : (([(t1, e1), (t2, e2)] : List (ℚ × ℚ)).map Prod.fst).dedup = [t1, t2] := by
      simp [List.dedup_cons_of_not_mem, hne12]
    rw [hd]
    simp
  unfold lstsqSlope
  rw [if_neg hcond]
  simp only [List.map_cons, List.map_nil, List.sum_cons, List.sum_nil, List.length_cons,
    List.length_nil]
  push_cast
  have hden : (2 : ℚ) * (t1 ^ 2 + (t2 ^ 2 + 0)) - (t1 + (t2 + 0)) ^ 2
      = (t1 - t2) ^ 2 := by ring
  rw [hden]
  rw [div_eq_div_iff (pow_ne_zero 2 (sub_ne_zero.mpr hne12))
    (sub_ne_zero.mpr (Ne.symm hne12))]
  ring

/-- C2: for a spatial location whose group has at least 2 distinct
timestamps, calculate_rate_of_change_map reports the ordinary
least-squares slope of elevation versus timestamp-in-seconds (the reported
slope together with the matching intercept minimizes the sum of squared
residuals over all lines) multiplied by 60 * 60 * 24 * 365; in particular
a group of exactly 2 points with distinct timestamps yields exactly
((e2 - e1) / (t2 - t1)) * 60 * 60 * 24 * 365. -/
theorem calculate_rate_of_change_map_ols
    (samples : List Sample) (l : ℚ × ℚ)
    (hl : l ∈ (samples.map Sample.loc).dedup)
    (h2 : 2 ≤ ((groupPoints samples l).map Prod.fst).dedup.length) :
    (⟨l, lstsqSlope (groupPoints samples l) * (60 * 60 * 24 * 365)⟩ : PixelTrend) ∈
      calculate_rate_of_change_map samples ∧
    (∀ m c : ℚ, ssr (groupPoints samples l)
        (lstsqSlope (groupPoints samples l)) (lstsqIntercept (groupPoints samples l)) ≤
      ssr (groupPoints samples l) m c) ∧
    (∀ t1 t2 e1 e2 : ℚ, groupPoints samples l = [(t1, e1), (t2, e2)] → t1 ≠ t2 →
      lstsqSlope (groupPoints samples l) * (60 * 60 * 24 * 365) =
        ((e2 - e1) / (t2 - t1)) * (60 * 60 * 24 * 365)) := by
  refine ⟨?_, lstsq_minimizes _ h2, ?_⟩
  · unfold calculate_rate_of_change_map
    have hmem : (⟨l, lstsqSlope (groupPoints samples l) * (60 * 60 * 24 * 365)⟩ : PixelTrend) ∈
        List.map (fun l2 =>
          (⟨l2, lstsqSlope (groupPoints samples l2) * (60 * 60 * 24 * 365)⟩ : PixelTrend))
          ((samples.map Sample.loc).dedup) :=
      List.mem_map_of_mem _ hl
    exact hmem
  · intro t1 t2 e1 e2 hpts hne12
    rw [hpts, lstsqSlope_two_point t1 t2 e1 e2 hne12]

/-- C2 witness: one location with samples (t, e) = (0, 5) and (1, 7); the
hypotheses of calculate_rate_of_change_map_ols hold and its conclusion
follows at this input. -/
theorem calculate_rate_of_change_map_ols_witness :
    ((1 : ℚ), (0 : ℚ)) ∈
      (([⟨(1, 0), 0, 5, RVal.finite 1⟩, ⟨(1, 0), 1, 7, RVal.finite 1⟩] : List Sample).map
        Sample.loc).dedup ∧
    2 ≤ ((groupPoints [⟨(1, 0), 0, 5, RVal.finite 1⟩, ⟨(1, 0), 1, 7, RVal.finite 1⟩]
        ((1 : ℚ), (0 : ℚ))).map Prod.fst).dedup.length ∧
    ((⟨((1 : ℚ), (0 : ℚ)), lstsqSlope (groupPoints
        [⟨(1, 0), 0, 5, RVal.finite 1⟩, ⟨(1, 0), 1, 7, RVal.finite 1⟩]
        ((1 : ℚ), (0 : ℚ))) * (60 * 60 * 24 * 365)⟩ : PixelTrend) ∈
      calculate_rate_of_change_map
        [⟨(1, 0), 0, 5, RVal.finite 1⟩, ⟨(1, 0), 1, 7, RVal.finite 1⟩] ∧
    (∀ m c : ℚ, ssr (groupPoints
          [⟨(1, 0), 0, 5, RVal.finite 1⟩, ⟨(1, 0), 1, 7, RVal.finite 1⟩] ((1 : ℚ), (0 : ℚ)))
        (lstsqSlope (groupPoints
          [⟨(1, 0), 0, 5, RVal.finite 1⟩, ⟨(1, 0), 1, 7, RVal.finite 1⟩] ((1 : ℚ), (0 : ℚ))))
        (lstsqIntercept (groupPoints
          [⟨(1, 0), 0, 5, RVal.finite 1⟩, ⟨(1, 0), 1, 7, RVal.finite 1⟩] ((1 : ℚ), (0 : ℚ)))) ≤
      ssr (groupPoints
          [⟨(1, 0), 0, 5, RVal.finite 1⟩, ⟨(1, 0), 1, 7, RVal.finite 1⟩] ((1 : ℚ), (0 : ℚ)))
        m c) ∧
    (∀ t1 t2 e1 e2 : ℚ, groupPoints
          [⟨(1, 0), 0, 5, RVal.finite 1⟩, ⟨(1, 0), 1, 7, RVal.finite 1⟩] ((1 : ℚ), (0 : ℚ))
          = [(t1, e1), (t2, e2)] → t1 ≠ t2 →
      lstsqSlope (groupPoints
          [⟨(1, 0), 0, 5, RVal.finite 1⟩, ⟨(1, 0), 1, 7, RVal.finite 1⟩] ((1 : ℚ), (0 : ℚ)))
          * (60 * 60 * 24 * 365) =
        ((e2 - e1) / (t2 - t1)) * (60 * 60 * 24 * 365))) := by
  have hgp : groupPoints [⟨(1, 0), 0, 5, RVal.finite 1⟩, ⟨(1, 0), 1, 7, RVal.finite 1⟩]
      ((1 : ℚ), (0 : ℚ)) = [(0, 5), (1, 7)] := by
    norm_num [groupPoints, pixelGroup, List.insertionSort, List.orderedInsert]
  have h2 : 2 ≤ ((groupPoints [⟨(1, 0), 0, 5, RVal.finite 1⟩, ⟨(1, 0), 1, 7, RVal.finite 1⟩]
      ((1 : ℚ), (0 : ℚ))).map Prod.fst).dedup.length := by
    rw [hgp]
    norm_num [List.dedup_cons_of_not_mem]
  exact ⟨by decide, h2,
    calculate_rate_of_change_map_ols _ ((1 : ℚ), (0 : ℚ)) (by decide) h2⟩
